import Mathlib

/-!
Verification of the QuickRun launcher (`qr.py`).

The development shallowly embeds the parts of `qr.py` that the specification
talks about:

* `Config.read` — line-oriented parsing of the `~/.qr.conf` file, with the two
  regular expressions `ITEM = ^\s*([^:]+?)\s*:\s*(.+)$` and
  `GROUP = ^\s*\{\s*(.*?)\s*\}\s*$`, the `ConfigError` raised on a line that
  matches neither, the accumulation of items into a dict of groups and the
  final sorting of groups by label and of items by name;
* `CmdWidget.match` — case-insensitive substring matching of the filter text;
* `QR._populate_pile` / `QR.on_filter` — recomputation of the visible pile of
  widgets from the filter text, including the "Not found" placeholder and the
  focus resets;
* `QR.exec_cmd` — the commit action;
* `ReadlineEdit.find_next_word` — the forward word motion used by `meta f`
  (move) and `meta d` (delete).

Python strings are modelled as `List Char` and Python's `str` methods
(`strip`, `lower`, substring `in`) are modelled character-by-character; the
model covers the ASCII behaviour of those methods (the six ASCII whitespace
characters stripped by `str.strip`, ASCII case folding), which is the range
the configuration grammar is written for.  Lines produced by Python's file
iteration never contain an interior newline, and the embedding of the two
(newline-free) regular expressions relies on that.
-/

/-- Python strings, modelled as lists of characters. -/
abbrev Str := List Char

/-- Conversion of a Lean string literal into the model type. -/
def str (s : String) : Str := s.toList

/-- Whitespace as recognised by Python's `str.strip` and by `\s` in the two
configuration regexes: space, tab, newline, carriage return, vertical tab and
form feed (the ASCII whitespace characters). -/
def pyIsSpace (c : Char) : Bool :=
  c = ' ' || c = '\t' || c = '\n' || c = '\x0d' || c = '\x0b' || c = '\x0c'

/-- Removal of leading whitespace (Python `str.lstrip`). -/
def pyStripLeft (s : Str) : Str := s.dropWhile pyIsSpace

/-- Removal of trailing whitespace (Python `str.rstrip`). -/
def pyStripRight (s : Str) : Str := (s.reverse.dropWhile pyIsSpace).reverse

/-- Python `str.strip`: removal of leading and trailing whitespace. -/
def pyStrip (s : Str) : Str := pyStripRight (pyStripLeft s)

/-- Python `str.lower`, on the ASCII range. -/
def lowerStr (s : Str) : Str := s.map Char.toLower

/-- Python's substring test `needle in hay`. -/
def strContains (hay needle : Str) : Bool :=
  needle.isPrefixOf hay ||
    match hay with
    | [] => false
    | _ :: t => strContains t needle

/-- Splitting a string at the first occurrence of the character `c`:
`splitFirst c s = some (pre, post)` when `s = pre ++ c :: post` and `c ∉ pre`.
-/
def splitFirst (c : Char) : Str → Option (Str × Str)
  | [] => none
  | x :: xs =>
    if x = c then some ([], xs)
    else (splitFirst c xs).map fun p => (x :: p.1, p.2)

/-- Semantics of `Config.ITEM = re.compile('^\s*([^:]+?)\s*:\s*(.+)$')`
(qr.py line 22), as used by `Config.read` via `ITEM.match(item)`.

The colon consumed by the pattern is necessarily the first colon of the
input, because neither `\s*` nor `[^:]+?` can cross a colon.  Group 1 is the
text before that colon with surrounding whitespace trimmed; because the
quantifier is non-greedy and is followed by `\s*`, the group ends at the last
non-whitespace character before the colon, and the leading `^\s*` is greedy,
so the group starts at the first non-whitespace character — except in the
corner case where everything before the colon is whitespace, where greedy
`^\s*` backs off by one character and the group captures the single
whitespace character just before the colon.  Group 2 is the remainder after
the colon with leading whitespace consumed by the greedy `\s*` — except when
the remainder is all whitespace, where `\s*` backs off so that `.+` can
capture the final whitespace character.  Neither corner case is reachable
from `Config.read`, which matches stripped lines only. -/
def itemMatch (s : Str) : Option (Str × Str) :=
  match splitFirst ':' s with
  | none => none
  | some (pre, post) =>
    if pre.isEmpty then none
    else if post.isEmpty then none
    else
      let nameT := pyStrip pre
      let name := if nameT.isEmpty then pre.drop (pre.length - 1) else nameT
      let w := (post.takeWhile pyIsSpace).length
      some (name, post.drop (min w (post.length - 1)))

/-- Semantics of `Config.GROUP = re.compile('^\s*\{\s*(.*?)\s*\}\s*$')`
(qr.py line 23), as used by `Config.read` via `GROUP.match(item)`.

After the leading whitespace the input must continue with `{`; the closing
brace matched by the pattern is the unique `}` that is followed by whitespace
only (so the input, right-stripped, must end in `}`), and the captured label
is the text between the braces with surrounding whitespace trimmed. -/
def groupMatch (s : Str) : Option Str :=
  match s.dropWhile pyIsSpace with
  | [] => none
  | x :: t =>
    if x = '{' then
      match h : pyStripRight t with
      | [] => none
      | _ :: _ =>
        if (pyStripRight t).getLast (by simp [h]) = '}' then
          some (pyStrip (pyStripRight t).dropLast)
        else none
    else none

/-- Classification of one raw configuration line, following the body of the
`for lno, line in enumerate(f)` loop of `Config.read` (qr.py lines 43-59):
the line is stripped; an empty or `#`-starting result is skipped; otherwise
the `ITEM` pattern is tried first and the `GROUP` pattern second, and a line
matching neither is invalid. -/
inductive LineKind where
  | blank : LineKind
  | item (name command : Str) : LineKind
  | group (label : Str) : LineKind
  | bad : LineKind
deriving DecidableEq

def classify (line : Str) : LineKind :=
  let t := pyStrip line
  if t.isEmpty then .blank
  else if t.head? = some '#' then .blank
  else
    match itemMatch t with
    | some nc => .item nc.1 nc.2
    | none =>
      match groupMatch t with
      | some g => .group g
      | none => .bad

/-- Python's ordinal comparison `a <= b` on strings: lexicographic comparison
of code points.  Used as the sort key comparison for `sorted(...)` and
`items.sort(...)` in `Config.read` (qr.py lines 68-70). -/
def strLe : Str → Str → Bool
  | [], _ => true
  | _ :: _, [] => false
  | a :: as, b :: bs =>
    if a.toNat < b.toNat then true
    else if b.toNat < a.toNat then false
    else strLe as bs

/-- Propositional form of `strLe`. -/
def pyLe (a b : Str) : Prop := strLe a b = true

instance : DecidableRel pyLe := fun a b => by unfold pyLe; infer_instance

/-- Comparison of group/item pairs by their first component, the key
extracted by `itemgetter(0)` in `Config.read` (qr.py line 68). -/
def keyLe {α : Type} (a b : Str × α) : Prop := pyLe a.1 b.1

instance {α : Type} : DecidableRel (keyLe (α := α)) := fun a b => by
  unfold keyLe; infer_instance

/-- One parsed item: the `(name, command)` pairs stored by `Config.read`. -/
abbrev PItem := Str × Str

/-- The accumulator `groups = {}` of `Config.read`: a Python dict from group
label to the list of its items, modelled as an association list in key
insertion order (Python dicts preserve insertion order). -/
abbrev GroupAList := List (Str × List PItem)

/-- The effect of `groups.setdefault(group, []); groups[group].append(item)`
(qr.py lines 65-66): the item is appended to the existing entry for the
label, or a new entry is created at the end of the dict. -/
def appendItem (g : Str) (it : PItem) : GroupAList → GroupAList
  | [] => [(g, [it])]
  | (g', its) :: rest =>
    if g' = g then (g', its ++ [it]) :: rest
    else (g', its) :: appendItem g it rest

/-- Dict lookup with a missing key giving the empty list. -/
def assocGet (acc : GroupAList) (g : Str) : List PItem :=
  match acc with
  | [] => []
  | (g', its) :: rest => if g' = g then its else assocGet rest g

/-- The error raised by `ConfigError('Invalid entry in %s:%d: %s' % (path,
lno + 1, line))` (qr.py lines 55-59), modelled as carrying its three format
arguments: the file path, the 1-based line number and the raw offending
line. -/
structure ConfigErr where
  path : Str
  lineno : Nat
  line : Str
deriving DecidableEq

/-- The state of a fully constructed `Config` object: its sorted `groups`
list and its `maxlen` field (qr.py lines 29-30). -/
structure ConfigState where
  groups : List (Str × List PItem)
  maxlen : Nat
deriving DecidableEq

/-- `Config.empty` (qr.py lines 33-34): `not self.groups`. -/
def ConfigState.empty (c : ConfigState) : Bool := c.groups.isEmpty

/-- The parsing loop of `Config.read` (qr.py lines 43-66): `lno` is the
0-based index of the next line, `g` the current group label (initially `''`,
qr.py line 38), `acc` the `groups` dict, `ml` the running `maxlen`.  A blank
or comment line is skipped; an item line updates `maxlen` with the name
length and appends the item under the current group; a group line replaces
the current group label; any other line raises `ConfigError`. -/
def readLoop (path : Str) (lno : Nat) (g : Str) (acc : GroupAList) (ml : Nat) :
    List Str → Except ConfigErr (GroupAList × Nat)
  | [] => .ok (acc, ml)
  | line :: rest =>
    match classify line with
    | .blank => readLoop path (lno + 1) g acc ml rest
    | .group label => readLoop path (lno + 1) label acc ml rest
    | .item n c =>
        readLoop path (lno + 1) g (appendItem g (n, c) acc) (max ml n.length) rest
    | .bad => .error ⟨path, lno + 1, line⟩

/-- The final sorting step of `Config.read` (qr.py lines 68-71): the dict
entries are sorted by label, each group's items are sorted by name, and the
results become `self.groups`.  Python's `sorted`/`list.sort` are stable
sorts; `List.insertionSort keyLe` computes the same list (it inserts an
element after all earlier elements with a `≤`-related key, which is exactly
the stable order; group labels are moreover unique dict keys). -/
def sortGroups (acc : GroupAList) : List (Str × List PItem) :=
  (acc.insertionSort keyLe).map fun p => (p.1, p.2.insertionSort keyLe)

/-- `Config.read` (qr.py lines 36-74) on a file, modelled as the optional
list of its lines (`none` models `FileNotFoundError`, which is swallowed and
leaves `groups = []`, `maxlen = 0` from `Config.__init__`). -/
def configRead (path : Str) (file : Option (List Str)) :
    Except ConfigErr ConfigState :=
  match file with
  | none => .ok ⟨[], 0⟩
  | some lines =>
    match readLoop path 0 [] [] 0 lines with
    | .error e => .error e
    | .ok (acc, ml) => .ok ⟨sortGroups acc, ml⟩

/-- A `CmdWidget` (qr.py lines 76-83): one selectable cell of the grid,
holding the item's display name and its shell command. -/
structure Item where
  name : Str
  command : Str
deriving DecidableEq

/-- `CmdWidget.match` (qr.py lines 82-83): `text in self.name.lower()`.  The
argument is the filter text, already lowercased by `QR.on_filter`. -/
def cmdMatch (it : Item) (text : Str) : Bool :=
  strContains (lowerStr it.name) text

/-- One entry of `QR._widgets` (qr.py lines 163-181): the optional
`GroupWidget` (present exactly when the group label is non-empty, qr.py
line 171) together with the full list of `CmdWidget`s of the group.  The
label is kept as the plain string; emptiness encodes the `if group:` test. -/
structure WGroup where
  label : Str
  cmds : List Item
deriving DecidableEq

/-- `QR._build_widgets` restricted to the data the claims are about: the
widget rows built from `config.groups` (qr.py lines 168-181). -/
def buildWidgets (c : ConfigState) : List WGroup :=
  c.groups.map fun p => ⟨p.1, p.2.map fun it => ⟨it.1, it.2⟩⟩

/-- One entry of the pile contents assembled by `QR._populate_pile`
(qr.py lines 189-209): a `GroupWidget` separator, a `GridFlow` holding the
group's (possibly filtered) `CmdWidget`s together with its internal focus
index, or the `Not found` placeholder built in `_build_widgets`
(qr.py lines 183-187). -/
inductive PileEntry where
  | group (label : Str) : PileEntry
  | grid (cmds : List Item) (focusIdx : Nat) : PileEntry
  | notFound : PileEntry
deriving DecidableEq

/-- Whether a pile entry is selectable in urwid's sense: `GroupWidget`
overrides `selectable` to `False` (qr.py lines 99-100); a `GridFlow` is
selectable when it holds a selectable cell (every `CmdWidget` wraps a
`SelectableIcon`, qr.py line 80); the placeholder is a `Pile` of a `Divider`
and a `BigText`, none of which is selectable. -/
def PileEntry.selectable : PileEntry → Bool
  | .group _ => false
  | .grid cmds _ => !cmds.isEmpty
  | .notFound => false

/-- The filtering loop of `QR._populate_pile` (qr.py lines 193-204): for
each widget row, if `search` is truthy (non-empty) the commands are filtered
by `CmdWidget.match` and a row left without commands is skipped entirely
(its `GroupWidget` included); otherwise the full command list is used.  A
shown row contributes its `GroupWidget` (when the label is non-empty) and
its `GridFlow`, whose contents are set to the commands and whose focus is
reset to cell 0 by `gfw[0].set_focus(0)`. -/
def visibleEntries : List WGroup → Str → List PileEntry
  | [], _ => []
  | w :: ws, search =>
    let cmds := if search.isEmpty then w.cmds
                else w.cmds.filter (fun c => cmdMatch c search)
    if !search.isEmpty && cmds.isEmpty then visibleEntries ws search
    else
      (if w.label.isEmpty then [] else [PileEntry.group w.label]) ++
        PileEntry.grid cmds 0 :: visibleEntries ws search

/-- `QR._populate_pile` (qr.py lines 189-212): the new pile contents and the
new pile focus position.  If nothing is visible the `Not found` placeholder
is the sole entry (qr.py lines 206-207).  The focus index is
`int(not isinstance(result[0][0], GridFlow))` and `set_focus` is only called
when that index is in range (qr.py lines 210-212); otherwise the pile keeps
its previous focus position `prevFocus`. -/
def populatePile (widgets : List WGroup) (search : Str) (prevFocus : Nat) :
    List PileEntry × Nat :=
  let vis := visibleEntries widgets search
  let result := if vis.isEmpty then [PileEntry.notFound] else vis
  let idx : Nat :=
    match result.head? with
    | some (PileEntry.grid _ _) => 0
    | _ => 1
  (result, if idx < result.length then idx else prevFocus)

/-- `QR.on_filter` (qr.py lines 214-215): every filter change repopulates
the pile with the lowercased filter text. -/
def onFilter (widgets : List WGroup) (text : Str) (prevFocus : Nat) :
    List PileEntry × Nat :=
  populatePile widgets (lowerStr text) prevFocus

/-- The items of all `GridFlow` entries of the pile, in display order — the
navigable cells of the visible grid. -/
def visibleItems : List PileEntry → List Item
  | [] => []
  | PileEntry.grid cmds _ :: rest => cmds ++ visibleItems rest
  | _ :: rest => visibleItems rest

/-- `QR.exec_cmd` (qr.py lines 240-245): `current = self.pile.focus` is the
entry at the pile's focus position, `current.focus` is that entry's focused
widget (for a `GridFlow`, the cell at its focus index; the `Not found` pile
and a `GroupWidget` have no `CmdWidget` in focus), and the session ends with
`self.command = current` exactly when that widget is a `CmdWidget`;
otherwise nothing happens. -/
def execCmd (pile : List PileEntry) (focus : Nat) : Option Item :=
  match pile.get? focus with
  | some (PileEntry.grid cmds i) => cmds.get? i
  | _ => none

/-- `ReadlineEdit.WORD_FW = re.compile(r'\S+\s')` scanning for a match
inside a run of non-whitespace characters (qr.py line 103): `n` characters
have been consumed so far; the match ends right after the first whitespace
character that follows. -/
def fwRun (n : Nat) : Str → Option Nat
  | [] => none
  | c :: rest => if pyIsSpace c then some (n + 1) else fwRun (n + 1) rest

/-- `re.search` of `WORD_FW = \S+\s`: the length of `match.group(0)` of the
leftmost match, if any.  A match starts at a non-whitespace character and
ends right after the first whitespace character following that run, so the
length is the run length plus one; whitespace skipped before the match
start is not part of the match and does not count. -/
def fwSearch : Str → Option Nat
  | [] => none
  | c :: rest =>
    if pyIsSpace c then fwSearch rest
    else fwRun 1 rest

/-- `ReadlineEdit.find_next_word` (qr.py lines 106-108): the search runs on
`self.edit_text[self.edit_pos:]`; on a match the new position is
`len(match.group(0)) + self.edit_pos` — the match length, not its end
offset, so whitespace between the cursor and the match start is skipped by
the search but not added to the cursor — otherwise `len(self.edit_text)`.
(The Python `and`/`or` idiom is faithful here: a successful match always
yields a positive value.) -/
def findNextWord (text : Str) (pos : Nat) : Nat :=
  match fwSearch (text.drop pos) with
  | some n => pos + n
  | none => text.length

/-- The text after the `meta d` branch of `ReadlineEdit.keypress`
(qr.py lines 132-134): deletion of
`self.edit_text[self.edit_pos:next_word]`. -/
def deleteNextWord (text : Str) (pos : Nat) : Str :=
  text.take pos ++ text.drop (findNextWord text pos)

/-- Specification-side description of the parse: the `(group, name, command)`
records of the item lines in file order, each tagged with the group label in
force at its line — the label of the most recent group-header line, or the
initial empty label.  Invalid lines carry no item; this reading is compared
with `Config.read` on inputs it accepts. -/
def collectItems (cur : Str) : List Str → List (Str × PItem)
  | [] => []
  | line :: rest =>
    match classify line with
    | .item n c => (cur, (n, c)) :: collectItems cur rest
    | .group l => collectItems l rest
    | _ => collectItems cur rest

/-- The item lines governed by the group label `g`, in file order. -/
def itemsUnder (lines : List Str) (g : Str) : List PItem :=
  ((collectItems [] lines).filter fun p => p.1 = g).map Prod.snd

/-- The names of all items of a loaded config, in display order. -/
def configNames (c : ConfigState) : List Str :=
  c.groups.flatMap fun p => p.2.map Prod.fst

/-- The maximum of the lengths of a list of strings (`0` for the empty
list); the specified value of `Config.maxlen`. -/
def maxLen (l : List Str) : Nat :=
  l.foldr (fun s m => max s.length m) 0

/-- Specification-side reading of claim C8's forward-word motion: the cursor
advances past the next run of non-whitespace characters *and all* the
whitespace immediately following that run; with no such run followed by
whitespace, it moves to the end of the text. -/
def nextWordAllSpaces (text : Str) (pos : Nat) : Nat :=
  let t := text.drop pos
  let ws := (t.takeWhile pyIsSpace).length
  let run := ((t.drop ws).takeWhile (fun c => !pyIsSpace c)).length
  if (t.drop ws).isEmpty then text.length
  else if ((t.drop ws).drop run).isEmpty then text.length
  else pos + ws + run + (((t.drop ws).drop run).takeWhile pyIsSpace).length

/-- What `find_next_word` actually computes: the cursor moves forward by
the length of the next run of non-whitespace characters plus exactly one
whitespace character terminating that run — the length of the `\S+\s`
match.  Whitespace between the cursor and that run is not counted, so a
cursor resting on whitespace can land inside the following word.  With no
such run followed by whitespace, the cursor moves to the end of the text. -/
def nextWordOneSpace (text : Str) (pos : Nat) : Nat :=
  let t := text.drop pos
  let ws := (t.takeWhile pyIsSpace).length
  let run := ((t.drop ws).takeWhile (fun c => !pyIsSpace c)).length
  if (t.drop ws).isEmpty then text.length
  else if ((t.drop ws).drop run).isEmpty then text.length
  else pos + run + 1

/-! ### Basic facts about the string model -/

theorem dropWhile_head_false {p : Char → Bool} :
    ∀ {l : List Char} {c : Char}, (l.dropWhile p).head? = some c → p c = false := by
  intro l
  induction l with
  | nil => intro c h; simp [List.dropWhile] at h
  | cons a t ih =>
    intro c h
    by_cases hp : p a
    · rw [List.dropWhile_cons_of_pos hp] at h
      exact ih h
    · rw [List.dropWhile_cons_of_neg hp] at h
      simp at h
      rw [← h]
      exact Bool.of_not_eq_true hp

theorem drop_length_takeWhile (p : Char → Bool) (l : List Char) :
    l.drop (l.takeWhile p).length = l.dropWhile p := by
  nth_rewrite 2 [← List.takeWhile_append_dropWhile (p := p) (l := l)]
  exact List.drop_left _ _

theorem pyStripLeft_head {s : Str} {c : Char} (h : (pyStripLeft s).head? = some c) :
    pyIsSpace c = false :=
  dropWhile_head_false h

theorem pyStripRight_getLast {s : Str} {c : Char}
    (h : (pyStripRight s).getLast? = some c) : pyIsSpace c = false := by
  unfold pyStripRight at h
  rw [List.getLast?_reverse] at h
  exact dropWhile_head_false h

theorem pyStripRight_eq_self {s : Str} {c : Char}
    (h : s.getLast? = some c) (hc : pyIsSpace c = false) : pyStripRight s = s := by
  unfold pyStripRight
  rw [← List.head?_reverse] at h
  have : s.reverse.dropWhile pyIsSpace = s.reverse := by
    cases hr : s.reverse with
    | nil => simp
    | cons a t =>
      rw [hr] at h
      simp at h
      rw [← h] at hc
      exact List.dropWhile_cons_of_neg (by simp [hc])
  rw [this, List.reverse_reverse]

theorem pyStripLeft_eq_self {s : Str} {c : Char}
    (h : s.head? = some c) (hc : pyIsSpace c = false) : pyStripLeft s = s := by
  unfold pyStripLeft
  cases s with
  | nil => simp
  | cons a t =>
    simp at h
    rw [← h] at hc
    exact List.dropWhile_cons_of_neg (by simp [hc])

theorem pyStripRight_ne_nil {s : Str} {c : Char} (hc : c ∈ s)
    (hns : pyIsSpace c = false) : pyStripRight s ≠ [] := by
  unfold pyStripRight
  simp only [ne_eq, List.reverse_eq_nil_iff, List.dropWhile_eq_nil_iff]
  intro hall
  have := hall c (by simp [hc])
  rw [hns] at this
  exact Bool.false_ne_true this

theorem pyStripLeft_ne_nil {s : Str} {c : Char} (hc : c ∈ s)
    (hns : pyIsSpace c = false) : pyStripLeft s ≠ [] := by
  unfold pyStripLeft
  simp only [ne_eq, List.dropWhile_eq_nil_iff]
  intro hall
  have := hall c hc
  rw [hns] at this
  exact Bool.false_ne_true this

/-- A string whose first and last characters are non-whitespace is fixed by
`pyStrip`. -/
theorem pyStrip_eq_self {s : Str} {c d : Char}
    (h1 : s.head? = some c) (hc : pyIsSpace c = false)
    (h2 : s.getLast? = some d) (hd : pyIsSpace d = false) : pyStrip s = s := by
  unfold pyStrip
  rw [pyStripLeft_eq_self h1 hc, pyStripRight_eq_self h2 hd]

/-- `strContains hay []` is `true`: the empty needle is a substring of
everything (`'' in s` is `True` in Python). -/
theorem strContains_nil (hay : Str) : strContains hay [] = true := by
  cases hay <;> simp [strContains, List.isPrefixOf]

/-! ### The ordinal string order -/

theorem strLe_cons (x y : Char) (xs ys : Str) :
    strLe (x :: xs) (y :: ys) =
      if x.toNat < y.toNat then true
      else if y.toNat < x.toNat then false
      else strLe xs ys := rfl

theorem strLe_total : ∀ a b : Str, strLe a b = true ∨ strLe b a = true := by
  intro a
  induction a with
  | nil => intro b; left; rfl
  | cons x xs ih =>
    intro b
    cases b with
    | nil => right; rfl
    | cons y ys =>
      rw [strLe_cons, strLe_cons]
      rcases ih ys with h | h <;> split_ifs <;> simp [h]

theorem strLe_trans : ∀ a b c : Str, strLe a b = true → strLe b c = true →
    strLe a c = true := by
  intro a
  induction a with
  | nil => intro b c _ _; rfl
  | cons x xs ih =>
    intro b c hab hbc
    cases b with
    | nil => simp [strLe] at hab
    | cons y ys =>
      cases c with
      | nil => simp [strLe] at hbc
      | cons z zs =>
        rw [strLe_cons] at hab hbc ⊢
        split_ifs at hab hbc ⊢ <;>
          first
            | rfl
            | (exact ih ys zs hab hbc)
            | (exact Bool.noConfusion hab)
            | (exact Bool.noConfusion hbc)
            | (exfalso; omega)

instance : IsTotal Str pyLe := ⟨strLe_total⟩

instance : IsTrans Str pyLe := ⟨strLe_trans⟩

instance {α : Type} : IsTotal (Str × α) keyLe := ⟨fun a b => strLe_total a.1 b.1⟩

instance {α : Type} : IsTrans (Str × α) keyLe :=
  ⟨fun a b c hab hbc => strLe_trans a.1 b.1 c.1 hab hbc⟩

/-! ### Sortedness of the loaded configuration -/

theorem sortGroups_sorted (acc : GroupAList) :
    List.Sorted keyLe (sortGroups acc) := by
  unfold sortGroups
  rw [List.Sorted, List.pairwise_map]
  exact List.sorted_insertionSort keyLe acc

theorem sortGroups_items_sorted (acc : GroupAList) :
    ∀ p ∈ sortGroups acc, List.Sorted keyLe p.2 := by
  intro p hp
  unfold sortGroups at hp
  rcases List.mem_map.mp hp with ⟨q, _, rfl⟩
  exact List.sorted_insertionSort keyLe q.2

/-- Successful form of `configRead` on a present file: the parse loop
succeeded and the groups are its sorted output. -/
theorem configRead_ok {path : Str} {lines : List Str} {c : ConfigState}
    (h : configRead path (some lines) = .ok c) :
    ∃ acc ml, readLoop path 0 [] [] 0 lines = .ok (acc, ml) ∧
      c = ⟨sortGroups acc, ml⟩ := by
  unfold configRead at h
  dsimp only at h
  cases hr : readLoop path 0 [] [] 0 lines with
  | error e => rw [hr] at h; cases h
  | ok r =>
    obtain ⟨acc, ml⟩ := r
    rw [hr] at h
    injection h with h2
    exact ⟨acc, ml, rfl, h2.symm⟩

/-- Claim C6: for every successfully loaded Config, groups are ordered by
label under ordinal (case-sensitive) string comparison and items within each
group are ordered by name the same way; and recomputing the visible pile for
the same Config and the same filter text yields the identical pile contents
(the recompute depends only on the widgets and the filter text, never on the
previous focus state or any other hidden state — deterministic and
idempotent, never hash-order). -/
theorem C6_sorted_order_deterministic (path : Str) (lines : List Str)
    (c : ConfigState) (h : configRead path (some lines) = .ok c) :
    List.Sorted keyLe c.groups ∧ (∀ p ∈ c.groups, List.Sorted keyLe p.2) ∧
      ∀ search prev prev', (populatePile (buildWidgets c) search prev).1 =
        (populatePile (buildWidgets c) search prev').1 := by
  obtain ⟨acc, ml, _, rfl⟩ := configRead_ok h
  exact ⟨sortGroups_sorted acc, sortGroups_items_sorted acc,
    fun search prev prev' => rfl⟩

/-- Witness for C6 at a concrete two-group configuration. -/
theorem C6_witness :
    (configRead (str "p") (some [str "b : x", str "\x7b g \x7d", str "a : y"]) =
      .ok ⟨[([], [(str "b", str "x")]), (str "g", [(str "a", str "y")])], 1⟩) ∧
    (List.Sorted keyLe
        (⟨[([], [(str "b", str "x")]), (str "g", [(str "a", str "y")])], 1⟩ :
          ConfigState).groups ∧
      (∀ p ∈ (⟨[([], [(str "b", str "x")]), (str "g", [(str "a", str "y")])], 1⟩ :
          ConfigState).groups, List.Sorted keyLe p.2) ∧
      ∀ search prev prev',
        (populatePile (buildWidgets
          ⟨[([], [(str "b", str "x")]), (str "g", [(str "a", str "y")])], 1⟩)
            search prev).1 =
        (populatePile (buildWidgets
          ⟨[([], [(str "b", str "x")]), (str "g", [(str "a", str "y")])], 1⟩)
            search prev').1) :=
  ⟨rfl, C6_sorted_order_deterministic (str "p")
    [str "b : x", str "\x7b g \x7d", str "a : y"] _ rfl⟩

/-! ### The visible set (claim C1) -/

theorem cmdMatch_nil (it : Item) : cmdMatch it [] = true := by
  unfold cmdMatch
  exact strContains_nil _

theorem filter_cmdMatch_nil (cmds : List Item) :
    cmds.filter (fun c => cmdMatch c []) = cmds := by
  induction cmds with
  | nil => rfl
  | cons a t ih => simp [List.filter_cons, cmdMatch_nil, ih]

theorem visibleEntries_eq (widgets : List WGroup) (search : Str)
    (h : ∀ w ∈ widgets, w.cmds ≠ []) :
    visibleEntries widgets search =
      widgets.flatMap fun w =>
        let m := w.cmds.filter fun it => cmdMatch it search
        if m.isEmpty then []
        else (if w.label.isEmpty then [] else [PileEntry.group w.label]) ++
          [PileEntry.grid m 0] := by
  induction widgets with
  | nil => rfl
  | cons w ws ih =>
    have hw : w.cmds ≠ [] := h w (by simp)
    have hrest := ih (fun x hx => h x (by simp [hx]))
    rw [List.flatMap_cons, ← hrest]
    by_cases hs : search.isEmpty
    · have hs' : search = [] := List.isEmpty_iff.mp hs
      subst hs'
      have hm : w.cmds.isEmpty = false := by
        cases hc : w.cmds with
        | nil => exact absurd hc hw
        | cons a t => rfl
      simp [visibleEntries, filter_cmdMatch_nil, hm]
    · have hs' : search.isEmpty = false := by simpa using hs
      by_cases hm : (w.cmds.filter fun it => cmdMatch it search).isEmpty
      · simp [visibleEntries, hs', hm]
      · have hm' : (w.cmds.filter fun it => cmdMatch it search).isEmpty = false := by
          simpa using hm
        simp [visibleEntries, hs', hm']

theorem visibleItems_append (a b : List PileEntry) :
    visibleItems (a ++ b) = visibleItems a ++ visibleItems b := by
  induction a with
  | nil => rfl
  | cons e t ih => cases e <;> simp [visibleItems, ih]

theorem visibleItems_flatMap (widgets : List WGroup) (search : Str) :
    visibleItems (widgets.flatMap fun w =>
        let m := w.cmds.filter fun it => cmdMatch it search
        if m.isEmpty then []
        else (if w.label.isEmpty then [] else [PileEntry.group w.label]) ++
          [PileEntry.grid m 0]) =
      (widgets.flatMap fun w => w.cmds).filter fun it => cmdMatch it search := by
  induction widgets with
  | nil => rfl
  | cons w ws ih =>
    rw [List.flatMap_cons, List.flatMap_cons, visibleItems_append, ih,
      List.filter_append]
    congr 1
    by_cases hm : (w.cmds.filter fun it => cmdMatch it search).isEmpty
    · have he : w.cmds.filter (fun it => cmdMatch it search) = [] :=
        List.isEmpty_iff.mp hm
      simp [hm, he, visibleItems]
    · have hm' : (w.cmds.filter fun it => cmdMatch it search).isEmpty = false := by
        simpa using hm
      by_cases hl : w.label.isEmpty <;> simp [hm', hl, visibleItems]

/-- Claim C1: for every widget list built from a Config (its groups are
non-empty) and every filter string `F`, the pile recomputed by
`on_filter`/`_populate_pile` consists, group by group in original order, of
exactly the items whose lowercased name contains the lowercased `F` as a
substring (`cmdMatch · (lowerStr F)` is the source's
`text in self.name.lower()` test with `text = F.lower()`), in their original
order; a group none of whose items matches contributes nothing — its group
label widget included.  Consequently the flat visible item list is exactly
the matching sublist of all items. -/
theorem C1_visible_filter (widgets : List WGroup) (F : Str)
    (h : ∀ w ∈ widgets, w.cmds ≠ []) :
    visibleEntries widgets (lowerStr F) =
      (widgets.flatMap fun w =>
        let m := w.cmds.filter fun it => cmdMatch it (lowerStr F)
        if m.isEmpty then []
        else (if w.label.isEmpty then [] else [PileEntry.group w.label]) ++
          [PileEntry.grid m 0]) ∧
    visibleItems (visibleEntries widgets (lowerStr F)) =
      (widgets.flatMap fun w => w.cmds).filter
        fun it => cmdMatch it (lowerStr F) := by
  refine ⟨visibleEntries_eq widgets (lowerStr F) h, ?_⟩
  rw [visibleEntries_eq widgets (lowerStr F) h]
  exact visibleItems_flatMap widgets (lowerStr F)

/-- Witness for C1: a one-group config with items `build` and `test` and the
filter text `TE`. -/
theorem C1_witness :
    (∀ w ∈ [WGroup.mk []
        [⟨str "build", str "make all"⟩, ⟨str "test", str "make test"⟩]],
      w.cmds ≠ []) ∧
    (visibleEntries [WGroup.mk []
        [⟨str "build", str "make all"⟩, ⟨str "test", str "make test"⟩]]
        (lowerStr (str "TE")) =
      ([WGroup.mk []
        [⟨str "build", str "make all"⟩, ⟨str "test", str "make test"⟩]].flatMap
          fun w =>
        let m := w.cmds.filter fun it => cmdMatch it (lowerStr (str "TE"))
        if m.isEmpty then []
        else (if w.label.isEmpty then [] else [PileEntry.group w.label]) ++
          [PileEntry.grid m 0]) ∧
    visibleItems (visibleEntries [WGroup.mk []
        [⟨str "build", str "make all"⟩, ⟨str "test", str "make test"⟩]]
        (lowerStr (str "TE"))) =
      ([WGroup.mk []
        [⟨str "build", str "make all"⟩, ⟨str "test", str "make test"⟩]].flatMap
          fun w => w.cmds).filter
        fun it => cmdMatch it (lowerStr (str "TE"))) :=
  ⟨by decide, C1_visible_filter
    [WGroup.mk [] [⟨str "build", str "make all"⟩, ⟨str "test", str "make test"⟩]]
    (str "TE") (by decide)⟩

/-! ### Shape of the recomputed pile (claims C2 and C7) -/

/-- Unfolding of one step of the `_populate_pile` loop. -/
theorem visibleEntries_cons (w : WGroup) (ws : List WGroup) (search : Str) :
    visibleEntries (w :: ws) search =
      if search.isEmpty then
        (if w.label.isEmpty then [] else [PileEntry.group w.label]) ++
          PileEntry.grid w.cmds 0 :: visibleEntries ws search
      else if (w.cmds.filter fun c => cmdMatch c search).isEmpty then
        visibleEntries ws search
      else
        (if w.label.isEmpty then [] else [PileEntry.group w.label]) ++
          PileEntry.grid (w.cmds.filter fun c => cmdMatch c search) 0 ::
            visibleEntries ws search := by
  by_cases hs : search.isEmpty
  · simp [visibleEntries, hs]
  · have hs' : search.isEmpty = false := by simpa using hs
    by_cases hm : (w.cmds.filter fun c => cmdMatch c search).isEmpty
    · simp [visibleEntries, hs', hm]
    · have hm' : (w.cmds.filter fun c => cmdMatch c search).isEmpty = false := by
        simpa using hm
      simp [visibleEntries, hs', hm']

theorem visibleEntries_grid_focus {widgets : List WGroup} {search : Str}
    {cmds : List Item} {i : Nat}
    (h : PileEntry.grid cmds i ∈ visibleEntries widgets search) : i = 0 := by
  induction widgets with
  | nil => simp [visibleEntries] at h
  | cons w ws ih =>
    rw [visibleEntries_cons] at h
    split at h
    · rcases List.mem_append.mp h with hpre | hmain
      · split at hpre <;> simp at hpre
      · rcases List.mem_cons.mp hmain with he | hrec
        · cases he; rfl
        · exact ih hrec
    · split at h
      · exact ih h
      · rcases List.mem_append.mp h with hpre | hmain
        · split at hpre <;> simp at hpre
        · rcases List.mem_cons.mp hmain with he | hrec
          · cases he; rfl
          · exact ih hrec

theorem visibleEntries_grid_ne_nil {widgets : List WGroup} {search : Str}
    {cmds : List Item} {i : Nat} (hw : ∀ w ∈ widgets, w.cmds ≠ [])
    (h : PileEntry.grid cmds i ∈ visibleEntries widgets search) : cmds ≠ [] := by
  induction widgets with
  | nil => simp [visibleEntries] at h
  | cons w ws ih =>
    have hrest : ∀ x ∈ ws, x.cmds ≠ [] := fun x hx => hw x (List.mem_cons_of_mem w hx)
    rw [visibleEntries_cons] at h
    split at h
    · rcases List.mem_append.mp h with hpre | hmain
      · split at hpre <;> simp at hpre
      · rcases List.mem_cons.mp hmain with he | hrec
        · injection he with h1 h2
          subst h1
          exact hw w (List.mem_cons_self w ws)
        · exact ih hrest hrec
    · split at h
      · exact ih hrest h
      · rename_i hm
        rcases List.mem_append.mp h with hpre | hmain
        · split at hpre <;> simp at hpre
        · rcases List.mem_cons.mp hmain with he | hrec
          · injection he with h1 h2
            subst h1
            intro hnil
            rw [hnil] at hm
            exact hm rfl
          · exact ih hrest hrec

theorem visibleEntries_head_shape (widgets : List WGroup) (search : Str) :
    visibleEntries widgets search = [] ∨
    (∃ cmds rest, visibleEntries widgets search =
      PileEntry.grid cmds 0 :: rest) ∨
    (∃ l cmds rest, visibleEntries widgets search =
      PileEntry.group l :: PileEntry.grid cmds 0 :: rest) := by
  induction widgets with
  | nil => left; rfl
  | cons w ws ih =>
    rw [visibleEntries_cons]
    split
    · by_cases hl : w.label.isEmpty
      · right; left
        exact ⟨_, _, by rw [if_pos hl]; rfl⟩
      · right; right
        exact ⟨_, _, _, by rw [if_neg hl]; rfl⟩
    · split
      · exact ih
      · by_cases hl : w.label.isEmpty
        · right; left
          exact ⟨_, _, by rw [if_pos hl]; rfl⟩
        · right; right
          exact ⟨_, _, _, by rw [if_neg hl]; rfl⟩

theorem mem_visibleItems {pile : List PileEntry} {cmds : List Item} {i : Nat}
    (h : PileEntry.grid cmds i ∈ pile) : ∀ it ∈ cmds, it ∈ visibleItems pile := by
  induction pile with
  | nil => simp at h
  | cons e t ih =>
    intro it hit
    rcases List.mem_cons.mp h with he | ht
    · subst he
      simp [visibleItems, hit]
    · cases e <;> simp [visibleItems, ih ht it hit]

/-- First component of `_populate_pile`: the new pile contents. -/
theorem populatePile_fst (widgets : List WGroup) (search : Str) (prev : Nat) :
    (populatePile widgets search prev).1 =
      if (visibleEntries widgets search).isEmpty then [PileEntry.notFound]
      else visibleEntries widgets search := rfl

theorem get?_zero_head? (l : List Item) : l.get? 0 = l.head? := by cases l <;> rfl

/-- Claim C2: commit (`enter` → `exec_cmd`) ends the session with an item
only when the focused cell holds a real `CmdWidget`, and that item is one of
the visible ones; when zero items are visible the recomputed pile is exactly
the `Not found` placeholder and commit is a no-op at every focus position;
and the placeholder is not selectable (hence not navigable). -/
theorem C2_commit (pile : List PileEntry) (f : Nat) :
    (∀ it, execCmd pile f = some it → it ∈ visibleItems pile) ∧
    (∀ widgets search prev, (∀ w ∈ widgets, w.cmds ≠ []) →
      visibleItems (populatePile widgets search prev).1 = [] →
        (populatePile widgets search prev).1 = [PileEntry.notFound] ∧
        ∀ k, execCmd (populatePile widgets search prev).1 k = none) ∧
    PileEntry.selectable PileEntry.notFound = false := by
  refine ⟨?_, ?_, rfl⟩
  · intro it h
    unfold execCmd at h
    cases hg : pile.get? f with
    | none => rw [hg] at h; cases h
    | some e =>
      rw [hg] at h
      cases e with
      | grid cmds i =>
        exact mem_visibleItems (List.get?_mem hg) it (List.get?_mem h)
      | group l => cases h
      | notFound => cases h
  · intro widgets search prev hw hvis
    rw [populatePile_fst] at hvis
    by_cases hv : (visibleEntries widgets search).isEmpty
    · have h1 : (populatePile widgets search prev).1 = [PileEntry.notFound] := by
        rw [populatePile_fst, if_pos hv]
      refine ⟨h1, ?_⟩
      intro k
      rw [h1]
      cases k with
      | zero => rfl
      | succ n => rfl
    · exfalso
      rw [if_neg hv] at hvis
      have hv' : visibleEntries widgets search ≠ [] := fun hh => hv (by rw [hh]; rfl)
      rcases visibleEntries_head_shape widgets search with h0 | ⟨cmds, rest, hsh⟩ |
        ⟨l, cmds, rest, hsh⟩
      · exact hv' h0
      · have hmem : PileEntry.grid cmds 0 ∈ visibleEntries widgets search := by
          rw [hsh]; exact List.mem_cons_self _ _
        have hne : cmds ≠ [] := visibleEntries_grid_ne_nil hw hmem
        cases hc : cmds with
        | nil => exact hne hc
        | cons a t =>
          have : a ∈ visibleItems (visibleEntries widgets search) :=
            mem_visibleItems hmem a (by rw [hc]; exact List.mem_cons_self _ _)
          rw [hvis] at this
          cases this
      · have hmem : PileEntry.grid cmds 0 ∈ visibleEntries widgets search := by
          rw [hsh]; exact List.mem_cons_of_mem _ (List.mem_cons_self _ _)
        have hne : cmds ≠ [] := visibleEntries_grid_ne_nil hw hmem
        cases hc : cmds with
        | nil => exact hne hc
        | cons a t =>
          have : a ∈ visibleItems (visibleEntries widgets search) :=
            mem_visibleItems hmem a (by rw [hc]; exact List.mem_cons_self _ _)
          rw [hvis] at this
          cases this

/-- Witness for C2: a singleton grid where commit yields the item, and a
filter with no matches where the pile is the placeholder and commit is a
no-op. -/
theorem C2_witness :
    ((⟨str "a", str "x"⟩ : Item) ∈
      visibleItems [PileEntry.grid [⟨str "a", str "x"⟩] 0]) ∧
    ((populatePile [⟨[], [⟨str "a", str "x"⟩]⟩] (str "zz") 3).1 =
        [PileEntry.notFound] ∧
      ∀ k, execCmd (populatePile [⟨[], [⟨str "a", str "x"⟩]⟩] (str "zz") 3).1 k =
        none) :=
  ⟨(C2_commit [PileEntry.grid [⟨str "a", str "x"⟩] 0] 0).1 ⟨str "a", str "x"⟩ rfl,
   (C2_commit [PileEntry.grid [⟨str "a", str "x"⟩] 0] 0).2.1
     [⟨[], [⟨str "a", str "x"⟩]⟩] (str "zz") 3 (by decide) (by decide)⟩

/-- Claim C7: after every recompute (hence after every filter-text change,
`on_filter` being an unconditional recompute) in which at least one group is
visible, every `GridFlow` of the pile has its internal focus reset to cell 0,
and the pile focus lands on the first `GridFlow` — the first visible group —
so the focused widget is that group's first visible item.  The previous
focus position `prev` is universally quantified: the reset happens whatever
was focused before, in particular when the previously focused item is still
visible. -/
theorem C7_focus_reset (widgets : List WGroup) (search : Str) (prev : Nat)
    (hw : ∀ w ∈ widgets, w.cmds ≠ [])
    (hv : visibleEntries widgets search ≠ []) :
    (∀ cmds i, PileEntry.grid cmds i ∈ (populatePile widgets search prev).1 →
      i = 0) ∧
    ∃ cmds, cmds ≠ [] ∧
      (populatePile widgets search prev).1.get?
        (populatePile widgets search prev).2 =
          some (PileEntry.grid cmds 0) ∧
      execCmd (populatePile widgets search prev).1
        (populatePile widgets search prev).2 = cmds.head? ∧
      ∀ j, j < (populatePile widgets search prev).2 →
        ∀ c k, (populatePile widgets search prev).1.get? j ≠
          some (PileEntry.grid c k) := by
  have hv' : (visibleEntries widgets search).isEmpty = false := by
    cases hc : visibleEntries widgets search with
    | nil => exact absurd hc hv
    | cons a t => rfl
  have hp1 : (populatePile widgets search prev).1 =
      visibleEntries widgets search := by
    rw [populatePile_fst, hv']
    exact if_neg (by simp)
  constructor
  · intro cmds i hm
    rw [hp1] at hm
    exact visibleEntries_grid_focus hm
  · rcases visibleEntries_head_shape widgets search with h0 | ⟨cmds, rest, hsh⟩ |
      ⟨l, cmds, rest, hsh⟩
    · exact absurd h0 hv
    · have hp2 : (populatePile widgets search prev).2 = 0 := by
        simp [populatePile, hsh]
      have hmem : PileEntry.grid cmds 0 ∈ visibleEntries widgets search := by
        rw [hsh]; exact List.mem_cons_self _ _
      refine ⟨cmds, visibleEntries_grid_ne_nil hw hmem, ?_, ?_, ?_⟩
      · rw [hp1, hp2, hsh]; rfl
      · rw [hp1, hp2, hsh]
        show cmds.get? 0 = cmds.head?
        exact get?_zero_head? cmds
      · intro j hj
        rw [hp2] at hj
        omega
    · have hlen : 1 < (visibleEntries widgets search).length := by
        rw [hsh]; simp
      have hp2 : (populatePile widgets search prev).2 = 1 := by
        simp [populatePile, hsh]
      have hmem : PileEntry.grid cmds 0 ∈ visibleEntries widgets search := by
        rw [hsh]; exact List.mem_cons_of_mem _ (List.mem_cons_self _ _)
      refine ⟨cmds, visibleEntries_grid_ne_nil hw hmem, ?_, ?_, ?_⟩
      · rw [hp1, hp2, hsh]; rfl
      · rw [hp1, hp2, hsh]
        show cmds.get? 0 = cmds.head?
        exact get?_zero_head? cmds
      · intro j hj
        rw [hp2] at hj
        interval_cases j
        rw [hp1, hsh]
        intro c k h
        cases h

/-- Witness for C7: a one-group labelled config with an arbitrary previous
focus position `5`. -/
theorem C7_witness :
    (∀ w ∈ [WGroup.mk (str "g") [⟨str "a", str "x"⟩]], w.cmds ≠ []) ∧
    (visibleEntries [WGroup.mk (str "g") [⟨str "a", str "x"⟩]] [] ≠ []) ∧
    ((∀ cmds i, PileEntry.grid cmds i ∈
        (populatePile [WGroup.mk (str "g") [⟨str "a", str "x"⟩]] [] 5).1 →
          i = 0) ∧
      ∃ cmds, cmds ≠ [] ∧
        (populatePile [WGroup.mk (str "g") [⟨str "a", str "x"⟩]] [] 5).1.get?
          (populatePile [WGroup.mk (str "g") [⟨str "a", str "x"⟩]] [] 5).2 =
            some (PileEntry.grid cmds 0) ∧
        execCmd (populatePile [WGroup.mk (str "g") [⟨str "a", str "x"⟩]] [] 5).1
          (populatePile [WGroup.mk (str "g") [⟨str "a", str "x"⟩]] [] 5).2 =
            cmds.head? ∧
        ∀ j, j < (populatePile [WGroup.mk (str "g") [⟨str "a", str "x"⟩]] [] 5).2 →
          ∀ c k,
            (populatePile [WGroup.mk (str "g") [⟨str "a", str "x"⟩]] [] 5).1.get?
              j ≠ some (PileEntry.grid c k)) :=
  ⟨by decide, by decide,
    C7_focus_reset [WGroup.mk (str "g") [⟨str "a", str "x"⟩]] [] 5
      (by decide) (by decide)⟩

/-! ### Forward word motion (claim C8) -/

theorem fwRun_eq (l : List Char) : ∀ n, fwRun n l =
    if (l.dropWhile fun c => !pyIsSpace c).isEmpty then none
    else some (n + (l.takeWhile fun c => !pyIsSpace c).length + 1) := by
  induction l with
  | nil => intro n; rfl
  | cons c rest ih =>
    intro n
    by_cases hc : pyIsSpace c
    · have h1 : (!pyIsSpace c) = false := by simp [hc]
      rw [show fwRun n (c :: rest) = some (n + 1) by simp [fwRun, hc],
        List.dropWhile_cons_of_neg (by simp [h1]),
        List.takeWhile_cons_of_neg (by simp [h1])]
      simp
    · have hc' : pyIsSpace c = false := by simpa using hc
      rw [show fwRun n (c :: rest) = fwRun (n + 1) rest by simp [fwRun, hc'],
        ih (n + 1),
        List.dropWhile_cons_of_pos (by simp [hc']),
        List.takeWhile_cons_of_pos (by simp [hc'])]
      split
      · rfl
      · simp
        omega

theorem fwSearch_eq (t : Str) : fwSearch t =
    if (t.dropWhile pyIsSpace).isEmpty then none
    else if ((t.dropWhile pyIsSpace).dropWhile fun c => !pyIsSpace c).isEmpty then
      none
    else some
      (((t.dropWhile pyIsSpace).takeWhile fun c => !pyIsSpace c).length + 1) := by
  induction t with
  | nil => rfl
  | cons c rest ih =>
    by_cases hc : pyIsSpace c
    · rw [show fwSearch (c :: rest) = fwSearch rest by simp [fwSearch, hc],
        ih,
        List.dropWhile_cons_of_pos (by simp [hc])]
    · have hc' : pyIsSpace c = false := by simpa using hc
      rw [show fwSearch (c :: rest) = fwRun 1 rest by simp [fwSearch, hc'],
        fwRun_eq rest 1,
        List.dropWhile_cons_of_neg (by simp [hc'])]
      rw [List.dropWhile_cons_of_pos (by simp [hc']),
        List.takeWhile_cons_of_pos (by simp [hc'])]
      simp only [List.isEmpty_cons, if_neg (by simp : ¬(false = true))]
      split
      · rfl
      · simp
        omega

/-- Counterexample to claim C8 as stated: in `"ab  cd"` with the cursor at 0,
`find_next_word` stops after the run `ab` plus one space, at offset 3, not
after all the whitespace following the run (offset 4, the position claim C8
describes, computed by `nextWordAllSpaces`). -/
theorem C8_counterexample :
    findNextWord (str "ab  cd") 0 = 3 ∧
    nextWordAllSpaces (str "ab  cd") 0 = 4 ∧
    findNextWord (str "ab  cd") 0 ≠ nextWordAllSpaces (str "ab  cd") 0 :=
  ⟨by decide, by decide, by decide⟩

/-- Claim C8 (amended): for every filter text and cursor position, the
move-next-word operation (and the deletion extent used by delete-next-word)
moves the cursor forward by the length of the leftmost `\S+\s` match after
the cursor — the length of the next run of non-whitespace characters plus
exactly one whitespace character terminating it, with any whitespace
between the cursor and that run not counted (the source adds
`len(match.group(0))`, the match length, to the cursor, so from a
whitespace position the cursor can land inside the following word); when no
such run followed by whitespace exists after the cursor, the cursor moves
to the end of the text.  `nextWordOneSpace` is that description; the
original claim's reading is refuted by `C8_counterexample`. -/
theorem C8_next_word_one_space (text : Str) (pos : Nat) :
    findNextWord text pos = nextWordOneSpace text pos ∧
    deleteNextWord text pos =
      text.take pos ++ text.drop (nextWordOneSpace text pos) := by
  have hmain : findNextWord text pos = nextWordOneSpace text pos := by
    unfold findNextWord nextWordOneSpace
    rw [fwSearch_eq]
    simp only [drop_length_takeWhile]
    by_cases h1 : (List.dropWhile pyIsSpace (List.drop pos text)).isEmpty
    · rw [if_pos h1, if_pos h1]
    · rw [if_neg h1, if_neg h1]
      by_cases h2 : (List.dropWhile (fun c => !pyIsSpace c)
          (List.dropWhile pyIsSpace (List.drop pos text))).isEmpty
      · rw [if_pos h2, if_pos h2]
      · rw [if_neg h2, if_neg h2]
        show pos + _ = _
        omega
  exact ⟨hmain, by rw [deleteNextWord, hmain]⟩

/-! ### Structure of a parsed item line (claim C3) -/

theorem splitFirst_eq {c : Char} : ∀ {s pre post : Str},
    splitFirst c s = some (pre, post) → s = pre ++ c :: post ∧ c ∉ pre := by
  intro s
  induction s with
  | nil => intro pre post h; cases h
  | cons x xs ih =>
    intro pre post h
    unfold splitFirst at h
    by_cases hx : x = c
    · rw [if_pos hx] at h
      injection h with h1
      injection h1 with h2 h3
      subst h2
      subst h3
      subst hx
      exact ⟨rfl, by simp⟩
    · rw [if_neg hx] at h
      cases hs : splitFirst c xs with
      | none => rw [hs] at h; cases h
      | some q =>
        obtain ⟨p1, p2⟩ := q
        rw [hs] at h
        injection h with h1
        injection h1 with h2 h3
        subst h2
        subst h3
        obtain ⟨hseq, hnotin⟩ := ih hs
        refine ⟨by rw [List.cons_append, ← hseq], ?_⟩
        intro hmem
        rcases List.mem_cons.mp hmem with he | hm
        · exact hx he.symm
        · exact hnotin hm

theorem pyStripRight_prefix (s : Str) : pyStripRight s <+: s := by
  unfold pyStripRight
  have h := (List.dropWhile_suffix (l := s.reverse) pyIsSpace).reverse
  rwa [List.reverse_reverse] at h

theorem head?_append_some {l₁ l₂ : List Char} {c : Char}
    (h : l₁.head? = some c) : (l₁ ++ l₂).head? = some c := by
  cases l₁ with
  | nil => cases h
  | cons a t => simpa using h

theorem pyStripRight_head {s : Str} {c : Char}
    (h : (pyStripRight s).head? = some c) : s.head? = some c := by
  obtain ⟨t, ht⟩ := pyStripRight_prefix s
  rw [← ht]
  exact head?_append_some h

theorem pyStrip_head {s : Str} {c : Char} (h : (pyStrip s).head? = some c) :
    pyIsSpace c = false := by
  unfold pyStrip at h
  exact pyStripLeft_head (pyStripRight_head h)

theorem pyStrip_getLast {s : Str} {c : Char}
    (h : (pyStrip s).getLast? = some c) : pyIsSpace c = false :=
  pyStripRight_getLast h

/-- Extraction from `classify`: an item classification comes from a
successful `ITEM` match on the stripped line. -/
theorem classify_item {line n c : Str} (h : classify line = .item n c) :
    itemMatch (pyStrip line) = some (n, c) := by
  unfold classify at h
  dsimp only at h
  split at h
  · cases h
  · split at h
    · cases h
    · split at h
      · rename_i nc heq
        injection h with h1 h2
        rw [heq]
        subst h1
        subst h2
        rfl
      · split at h <;> cases h

theorem getLast?_mem' {l : List Char} {a : Char} (h : l.getLast? = some a) :
    a ∈ l :=
  List.mem_of_mem_getLast? (by rw [h]; rfl)

/-- A successful `ITEM` match on a stripped input (first and last characters
non-whitespace, as produced by `line.strip()` in `Config.read`) splits the
line at its first colon: the name is the part before the first colon,
whitespace-trimmed, and the command is the raw remainder after that colon,
whitespace-trimmed, with any further colons left alone. -/
theorem itemMatch_some {s n c : Str}
    (hhead : ∀ ch, s.head? = some ch → pyIsSpace ch = false)
    (hlast : ∀ ch, s.getLast? = some ch → pyIsSpace ch = false)
    (h : itemMatch s = some (n, c)) :
    ∃ pre post, s = pre ++ ':' :: post ∧ ':' ∉ pre ∧
      n = pyStrip pre ∧ c = pyStrip post := by
  unfold itemMatch at h
  cases hsp : splitFirst ':' s with
  | none => rw [hsp] at h; cases h
  | some q =>
    obtain ⟨pre, post⟩ := q
    rw [hsp] at h
    dsimp only at h
    obtain ⟨hseq, hnotin⟩ := splitFirst_eq hsp
    by_cases hpre : pre.isEmpty
    · rw [if_pos hpre] at h; cases h
    · rw [if_neg hpre] at h
      by_cases hpost : post.isEmpty
      · rw [if_pos hpost] at h; cases h
      · rw [if_neg hpost] at h
        have hpre' : pre ≠ [] := fun hh => hpre (by rw [hh]; rfl)
        have hpost' : post ≠ [] := fun hh => hpost (by rw [hh]; rfl)
        obtain ⟨c0, t0, rfl⟩ := List.exists_cons_of_ne_nil hpre'
        have hc0s : pyIsSpace c0 = false := by
          apply hhead
          rw [hseq]
          exact head?_append_some rfl
        have hnt : pyStrip (c0 :: t0) ≠ [] := by
          unfold pyStrip
          rw [pyStripLeft_eq_self (List.head?_cons (a := c0) (l := t0)) hc0s]
          exact pyStripRight_ne_nil (List.mem_cons_self _ _) hc0s
        obtain ⟨p0, ps, rfl⟩ := List.exists_cons_of_ne_nil hpost'
        obtain ⟨d, hd⟩ : ∃ d, (p0 :: ps).getLast? = some d := by
          cases hgl : (p0 :: ps).getLast? with
          | none => rw [List.getLast?_eq_none_iff] at hgl; cases hgl
          | some d => exact ⟨d, rfl⟩
        have hds : pyIsSpace d = false := by
          apply hlast
          rw [hseq, List.getLast?_append_of_ne_nil _ (by simp),
            List.getLast?_cons_cons]
          exact hd
        have hw : ((p0 :: ps).takeWhile pyIsSpace).length < (p0 :: ps).length := by
          rcases Nat.lt_or_ge ((p0 :: ps).takeWhile pyIsSpace).length
            (p0 :: ps).length with hlt | hge
          · exact hlt
          · exfalso
            have hle := (List.takeWhile_prefix (l := p0 :: ps) pyIsSpace).length_le
            have heqw : (p0 :: ps).takeWhile pyIsSpace = p0 :: ps :=
              (List.takeWhile_prefix pyIsSpace).eq_of_length (le_antisymm hle hge)
            have hdm : d ∈ (p0 :: ps).takeWhile pyIsSpace := by
              rw [heqw]; exact getLast?_mem' hd
            rw [List.mem_takeWhile_imp hdm] at hds
            cases hds
        have hplne : pyStripLeft (p0 :: ps) ≠ [] :=
          pyStripLeft_ne_nil (getLast?_mem' hd) hds
        have hpl_last : (pyStripLeft (p0 :: ps)).getLast? = some d := by
          have heq2 : (p0 :: ps).getLast? = (pyStripLeft (p0 :: ps)).getLast? := by
            conv_lhs => rw [← List.takeWhile_append_dropWhile (p := pyIsSpace)
              (l := p0 :: ps)]
            exact List.getLast?_append_of_ne_nil _ hplne
          rw [← heq2, hd]
        have hps2 : pyStrip (p0 :: ps) = pyStripLeft (p0 :: ps) := by
          unfold pyStrip
          exact pyStripRight_eq_self hpl_last hds
        have hmin : min ((p0 :: ps).takeWhile pyIsSpace).length
            ((p0 :: ps).length - 1) = ((p0 :: ps).takeWhile pyIsSpace).length := by
          omega
        injection h with h1
        injection h1 with hn hc
        refine ⟨c0 :: t0, p0 :: ps, hseq, hnotin, ?_, ?_⟩
        · rw [← hn, if_neg (by simp [List.isEmpty_iff, hnt])]
        · rw [← hc, hmin, drop_length_takeWhile, hps2]
          rfl

/-- Claim C3: every config line classified as an item splits, after
stripping, at its first colon (no escaping exists in the grammar, so every
colon is "unescaped" and the name is the shortest match up to the first
one): the parsed name is the text before that colon trimmed of whitespace on
both sides, and the parsed command is the raw remainder after the colon
trimmed of leading/trailing whitespace only — passed through verbatim, any
embedded `:` included. -/
theorem C3_item_line (line n c : Str) (h : classify line = .item n c) :
    ∃ pre post, pyStrip line = pre ++ ':' :: post ∧ ':' ∉ pre ∧
      n = pyStrip pre ∧ c = pyStrip post :=
  itemMatch_some (fun _ hch => pyStrip_head hch)
    (fun _ hch => pyStrip_getLast hch) (classify_item h)

/-- Witness for C3: an item line whose command embeds further colons. -/
theorem C3_witness :
    classify (str " ssh home : ssh -p 22 host:22 ") =
      LineKind.item (str "ssh home") (str "ssh -p 22 host:22") ∧
    ∃ pre post, pyStrip (str " ssh home : ssh -p 22 host:22 ") =
        pre ++ ':' :: post ∧ ':' ∉ pre ∧
      str "ssh home" = pyStrip pre ∧ str "ssh -p 22 host:22" = pyStrip post :=
  ⟨by decide, C3_item_line (str " ssh home : ssh -p 22 host:22 ")
    (str "ssh home") (str "ssh -p 22 host:22") (by decide)⟩

/-! ### Error behaviour of the config loader (claim C5) -/

theorem readLoop_ok_iff (path : Str) : ∀ (lines : List Str) (lno : Nat) (g : Str)
    (acc : GroupAList) (ml : Nat),
    (∃ r, readLoop path lno g acc ml lines = .ok r) ↔
      ∀ l ∈ lines, classify l ≠ .bad := by
  intro lines
  induction lines with
  | nil =>
    intro lno g acc ml
    exact ⟨fun _ l hl => absurd hl (List.not_mem_nil l), fun _ => ⟨_, rfl⟩⟩
  | cons line rest ih =>
    intro lno g acc ml
    constructor
    · intro ⟨r, hr⟩ l hl
      unfold readLoop at hr
      rcases List.mem_cons.mp hl with he | hm
      · subst he
        intro hbad
        rw [hbad] at hr
        cases hr
      · cases hcl : classify line with
        | bad => rw [hcl] at hr; cases hr
        | blank => rw [hcl] at hr; exact (ih _ _ _ _).mp ⟨r, hr⟩ l hm
        | item n c => rw [hcl] at hr; exact (ih _ _ _ _).mp ⟨r, hr⟩ l hm
        | group lab => rw [hcl] at hr; exact (ih _ _ _ _).mp ⟨r, hr⟩ l hm
    · intro hall
      have hline : classify line ≠ .bad := hall line (List.mem_cons_self _ _)
      have hrest : ∀ l ∈ rest, classify l ≠ .bad :=
        fun l hl => hall l (List.mem_cons_of_mem _ hl)
      unfold readLoop
      cases hcl : classify line with
      | bad => exact absurd hcl hline
      | blank => exact (ih _ _ _ _).mpr hrest
      | item n c => exact (ih _ _ _ _).mpr hrest
      | group lab => exact (ih _ _ _ _).mpr hrest

theorem readLoop_error (path : Str) : ∀ (lines : List Str) (lno : Nat) (g : Str)
    (acc : GroupAList) (ml : Nat) (e : ConfigErr),
    readLoop path lno g acc ml lines = .error e →
      e.path = path ∧ ∃ i, lines.get? i = some e.line ∧ classify e.line = .bad ∧
        e.lineno = lno + i + 1 ∧
        ∀ j, j < i → ∀ l, lines.get? j = some l → classify l ≠ .bad := by
  intro lines
  induction lines with
  | nil => intro lno g acc ml e h; cases h
  | cons line rest ih =>
    intro lno g acc ml e h
    unfold readLoop at h
    cases hcl : classify line with
    | bad =>
      rw [hcl] at h
      injection h with h1
      subst h1
      refine ⟨rfl, 0, rfl, hcl, by simp, ?_⟩
      intro j hj
      omega
    | blank =>
      rw [hcl] at h
      obtain ⟨hp, i, hget, hbad, hlno, hbefore⟩ := ih _ _ _ _ e h
      refine ⟨hp, i + 1, hget, hbad, by omega, ?_⟩
      intro j hj l hl
      cases j with
      | zero =>
        intro hb
        injection hl with hl'
        subst hl'
        rw [hcl] at hb
        cases hb
      | succ j' => exact hbefore j' (by omega) l hl
    | item n c =>
      rw [hcl] at h
      obtain ⟨hp, i, hget, hbad, hlno, hbefore⟩ := ih _ _ _ _ e h
      refine ⟨hp, i + 1, hget, hbad, by omega, ?_⟩
      intro j hj l hl
      cases j with
      | zero =>
        intro hb
        injection hl with hl'
        subst hl'
        rw [hcl] at hb
        cases hb
      | succ j' => exact hbefore j' (by omega) l hl
    | group lab =>
      rw [hcl] at h
      obtain ⟨hp, i, hget, hbad, hlno, hbefore⟩ := ih _ _ _ _ e h
      refine ⟨hp, i + 1, hget, hbad, by omega, ?_⟩
      intro j hj l hl
      cases j with
      | zero =>
        intro hb
        injection hl with hl'
        subst hl'
        rw [hcl] at hb
        cases hb
      | succ j' => exact hbefore j' (by omega) l hl

/-- Claim C5: loading raises `ConfigError` iff some line that is non-empty
and non-comment after trimming matches neither the item pattern nor the
group pattern (`classify l = .bad` is exactly that condition); the raised
error carries the file path and the 1-based number of the first such line
(together with the raw line, as in the `'Invalid entry in %s:%d: %s'`
message); and a missing file gives no error but an empty Config. -/
theorem C5_config_error (path : Str) (lines : List Str) :
    (configRead path none = .ok ⟨[], 0⟩ ∧
      ConfigState.empty ⟨[], 0⟩ = true) ∧
    ((∃ e, configRead path (some lines) = .error e) ↔
      ∃ l ∈ lines, classify l = .bad) ∧
    ∀ e, configRead path (some lines) = .error e →
      e.path = path ∧ ∃ i, lines.get? i = some e.line ∧
        classify e.line = .bad ∧ e.lineno = i + 1 ∧
        ∀ j, j < i → ∀ l, lines.get? j = some l → classify l ≠ .bad := by
  refine ⟨⟨rfl, rfl⟩, ?_, ?_⟩
  · constructor
    · intro ⟨e, he⟩
      unfold configRead at he
      dsimp only at he
      cases hr : readLoop path 0 [] [] 0 lines with
      | ok r => obtain ⟨acc, ml⟩ := r; rw [hr] at he; cases he
      | error e2 =>
        rw [hr] at he
        injection he with he2
        subst he2
        obtain ⟨_, i, hget, hbad, _, _⟩ :=
          readLoop_error path lines 0 [] [] 0 e2 hr
        exact ⟨e2.line, List.get?_mem hget, hbad⟩
    · intro ⟨l, hl, hbad⟩
      by_contra hne
      push_neg at hne
      cases hc : configRead path (some lines) with
      | error e => exact hne e hc
      | ok c =>
        obtain ⟨acc, ml, hr, _⟩ := configRead_ok hc
        exact (readLoop_ok_iff path lines 0 [] [] 0).mp ⟨_, hr⟩ l hl hbad
  · intro e he
    unfold configRead at he
    dsimp only at he
    cases hr : readLoop path 0 [] [] 0 lines with
    | ok r => obtain ⟨acc, ml⟩ := r; rw [hr] at he; cases he
    | error e2 =>
      rw [hr] at he
      injection he with he2
      subst he2
      obtain ⟨hp, i, hget, hbad, hlno, hbef⟩ :=
        readLoop_error path lines 0 [] [] 0 e2 hr
      exact ⟨hp, i, hget, hbad, by omega, hbef⟩

/-- Witness for C5: a file whose second line is invalid; the error carries
the path and the 1-based line number 2. -/
theorem C5_witness :
    configRead (str "p") (some [str "a : b", str "badline"]) =
      .error ⟨str "p", 2, str "badline"⟩ ∧
    ((⟨str "p", 2, str "badline"⟩ : ConfigErr).path = str "p" ∧
      ∃ i, [str "a : b", str "badline"].get? i =
          some (⟨str "p", 2, str "badline"⟩ : ConfigErr).line ∧
        classify (⟨str "p", 2, str "badline"⟩ : ConfigErr).line = .bad ∧
        (⟨str "p", 2, str "badline"⟩ : ConfigErr).lineno = i + 1 ∧
        ∀ j, j < i → ∀ l, [str "a : b", str "badline"].get? j = some l →
          classify l ≠ .bad) :=
  ⟨rfl, (C5_config_error (str "p") [str "a : b", str "badline"]).2.2
    ⟨str "p", 2, str "badline"⟩ rfl⟩

/-! ### The accumulated group dictionary (claims C9 and C10) -/

/-- All items of the accumulated dict, in dict order. -/
def flatItems (acc : GroupAList) : List PItem := acc.flatMap Prod.snd

theorem maxLen_perm {l₁ l₂ : List Str} (h : l₁.Perm l₂) :
    maxLen l₁ = maxLen l₂ := by
  induction h with
  | nil => rfl
  | cons x _ ih => unfold maxLen at *; simp [ih]
  | swap x y l =>
    show max y.length (max x.length (maxLen l)) =
      max x.length (max y.length (maxLen l))
    omega
  | trans _ _ ih1 ih2 => exact ih1.trans ih2

theorem collectItems_snd_indep : ∀ (lines : List Str) (g g' : Str),
    (collectItems g lines).map Prod.snd = (collectItems g' lines).map Prod.snd := by
  intro lines
  induction lines with
  | nil => intro g g'; rfl
  | cons line rest ih =>
    intro g g'
    cases hcl : classify line with
    | item n c => simp [collectItems, hcl, ih g g']
    | group lab => simp [collectItems, hcl]
    | blank => simp [collectItems, hcl, ih g g']
    | bad => simp [collectItems, hcl, ih g g']

theorem assocGet_appendItem (g : Str) (it : PItem) (lbl : Str) :
    ∀ acc : GroupAList, assocGet (appendItem g it acc) lbl =
      assocGet acc lbl ++ if lbl = g then [it] else [] := by
  intro acc
  induction acc with
  | nil =>
    show (if g = lbl then [it] else []) = [] ++ if lbl = g then [it] else []
    rw [List.nil_append]
    by_cases h : lbl = g
    · rw [if_pos h.symm, if_pos h]
    · rw [if_neg (fun hh : g = lbl => h hh.symm), if_neg h]
  | cons p rest ih =>
    obtain ⟨g', its⟩ := p
    by_cases hg : g' = g
    · subst hg
      rw [show appendItem g' it ((g', its) :: rest) = (g', its ++ [it]) :: rest by
        simp [appendItem]]
      show (if g' = lbl then its ++ [it] else assocGet rest lbl) =
        (if g' = lbl then its else assocGet rest lbl) ++
          if lbl = g' then [it] else []
      by_cases hl : lbl = g'
      · rw [if_pos hl.symm, if_pos hl.symm, if_pos hl]
      · rw [if_neg (fun hh : g' = lbl => hl hh.symm),
          if_neg (fun hh : g' = lbl => hl hh.symm), if_neg hl, List.append_nil]
    · rw [show appendItem g it ((g', its) :: rest) =
          (g', its) :: appendItem g it rest by simp [appendItem, hg]]
      show (if g' = lbl then its else assocGet (appendItem g it rest) lbl) =
        (if g' = lbl then its else assocGet rest lbl) ++
          if lbl = g then [it] else []
      by_cases hl : g' = lbl
      · subst hl
        rw [if_pos rfl, if_pos rfl,
          if_neg (fun hh : g' = g => hg hh), List.append_nil]
      · rw [if_neg hl, if_neg hl, ih]

theorem appendItem_keys (g : Str) (it : PItem) : ∀ acc : GroupAList,
    (appendItem g it acc).map Prod.fst =
      if g ∈ acc.map Prod.fst then acc.map Prod.fst
      else acc.map Prod.fst ++ [g] := by
  intro acc
  induction acc with
  | nil => simp [appendItem]
  | cons p rest ih =>
    obtain ⟨g', its⟩ := p
    by_cases hg : g' = g
    · subst hg
      simp [appendItem]
    · rw [show appendItem g it ((g', its) :: rest) =
          (g', its) :: appendItem g it rest by simp [appendItem, hg]]
      have hne : ¬ g = g' := fun hh => hg hh.symm
      show g' :: (appendItem g it rest).map Prod.fst = _
      rw [ih]
      simp only [List.map_cons]
      by_cases hmem : g ∈ rest.map Prod.fst
      · rw [if_pos hmem, if_pos (List.mem_cons_of_mem _ hmem)]
      · rw [if_neg hmem, if_neg (by
          intro hc
          rcases List.mem_cons.mp hc with he | hm
          · exact hne he
          · exact hmem hm)]
        rfl

theorem flatItems_appendItem (g : Str) (it : PItem) : ∀ acc : GroupAList,
    (flatItems (appendItem g it acc)).Perm (flatItems acc ++ [it]) := by
  intro acc
  induction acc with
  | nil => simp [appendItem, flatItems]
  | cons p rest ih =>
    obtain ⟨g', its⟩ := p
    by_cases hg : g' = g
    · subst hg
      rw [show appendItem g' it ((g', its) :: rest) = (g', its ++ [it]) :: rest by
        simp [appendItem]]
      show ((its ++ [it]) ++ flatItems rest).Perm
        ((its ++ flatItems rest) ++ [it])
      rw [List.append_assoc, List.append_assoc]
      exact List.Perm.append_left its List.perm_append_comm
    · rw [show appendItem g it ((g', its) :: rest) =
          (g', its) :: appendItem g it rest by simp [appendItem, hg]]
      show (its ++ flatItems (appendItem g it rest)).Perm
        ((its ++ flatItems rest) ++ [it])
      rw [List.append_assoc]
      exact List.Perm.append_left its ih

/-- Combined loop invariant of `Config.read`'s parsing loop: the final
`maxlen` is the running maximum of all parsed name lengths; each dict entry
collects, in file order, exactly the items whose current group label matches;
the multiset of parsed items is preserved; and dict keys stay duplicate-free.
-/
theorem readLoop_invariant (path : Str) : ∀ (lines : List Str) (lno : Nat)
    (g : Str) (acc : GroupAList) (ml : Nat) (acc' : GroupAList) (ml' : Nat),
    readLoop path lno g acc ml lines = .ok (acc', ml') →
    ml' = max ml (maxLen ((collectItems g lines).map fun p => p.2.1)) ∧
    (∀ lbl, assocGet acc' lbl = assocGet acc lbl ++
      ((collectItems g lines).filter fun p => p.1 = lbl).map Prod.snd) ∧
    (flatItems acc').Perm
      (flatItems acc ++ (collectItems g lines).map Prod.snd) ∧
    ((acc.map Prod.fst).Nodup → (acc'.map Prod.fst).Nodup) := by
  intro lines
  induction lines with
  | nil =>
    intro lno g acc ml acc' ml' h
    injection h with h1
    injection h1 with h2 h3
    subst h2
    subst h3
    refine ⟨by simp [collectItems, maxLen], fun lbl => by simp [collectItems],
      by simp [collectItems], id⟩
  | cons line rest ih =>
    intro lno g acc ml acc' ml' h
    unfold readLoop at h
    cases hcl : classify line with
    | bad => rw [hcl] at h; cases h
    | blank =>
      rw [hcl] at h
      have hco : collectItems g (line :: rest) = collectItems g rest := by
        simp [collectItems, hcl]
      obtain ⟨h1, h2, h3, h4⟩ := ih _ _ _ _ _ _ h
      exact ⟨by rw [hco]; exact h1, fun lbl => by rw [hco]; exact h2 lbl,
        by rw [hco]; exact h3, h4⟩
    | group lab =>
      rw [hcl] at h
      have hco : collectItems g (line :: rest) = collectItems lab rest := by
        simp [collectItems, hcl]
      obtain ⟨h1, h2, h3, h4⟩ := ih _ _ _ _ _ _ h
      exact ⟨by rw [hco]; exact h1, fun lbl => by rw [hco]; exact h2 lbl,
        by rw [hco]; exact h3, h4⟩
    | item n c =>
      rw [hcl] at h
      have hco : collectItems g (line :: rest) =
          (g, (n, c)) :: collectItems g rest := by
        simp [collectItems, hcl]
      obtain ⟨h1, h2, h3, h4⟩ := ih _ _ _ _ _ _ h
      refine ⟨?_, ?_, ?_, ?_⟩
      · have hml : maxLen ((collectItems g (line :: rest)).map fun p => p.2.1) =
            max n.length (maxLen ((collectItems g rest).map fun p => p.2.1)) := by
          rw [hco]; rfl
        rw [hml]
        omega
      · intro lbl
        rw [hco, h2 lbl, assocGet_appendItem, List.append_assoc]
        congr 1
        by_cases hl : lbl = g
        · have hl2 : g = lbl := hl.symm
          simp [List.filter_cons, hl2]
        · have hl2 : ¬ g = lbl := fun hh => hl hh.symm
          simp [List.filter_cons, hl, hl2]
      · rw [hco]
        refine h3.trans ?_
        have hap := flatItems_appendItem g (n, c) acc
        refine (List.Perm.append_right _ hap).trans ?_
        rw [List.append_assoc]
        exact List.Perm.refl _
      · intro hnd
        apply h4
        rw [appendItem_keys]
        split
        · exact hnd
        · rename_i hmem
          simp [List.nodup_append, hnd, hmem]

theorem assocGet_of_mem : ∀ {acc : GroupAList} {p : Str × List PItem},
    (acc.map Prod.fst).Nodup → p ∈ acc → assocGet acc p.1 = p.2 := by
  intro acc
  induction acc with
  | nil => intro p _ hp; cases hp
  | cons q rest ih =>
    intro p hnd hp
    obtain ⟨g', its⟩ := q
    have hnd' : g' ∉ rest.map Prod.fst ∧ (rest.map Prod.fst).Nodup :=
      List.nodup_cons.mp (by simpa using hnd)
    rcases List.mem_cons.mp hp with he | hm
    · subst he
      show (if g' = g' then its else assocGet rest g') = its
      rw [if_pos rfl]
    · have hne : ¬ g' = p.1 := by
        intro he
        exact hnd'.1 (he ▸ List.mem_map_of_mem Prod.fst hm)
      show (if g' = p.1 then its else assocGet rest p.1) = p.2
      rw [if_neg hne]
      exact ih hnd'.2 hm

theorem mem_sortGroups {acc : GroupAList} {p : Str × List PItem}
    (h : p ∈ sortGroups acc) :
    ∃ q ∈ acc, q.1 = p.1 ∧ p.2 = q.2.insertionSort keyLe := by
  unfold sortGroups at h
  rcases List.mem_map.mp h with ⟨q, hq, rfl⟩
  exact ⟨q, by simpa using hq, rfl, rfl⟩

theorem sortGroups_keys_nodup {acc : GroupAList}
    (h : (acc.map Prod.fst).Nodup) : ((sortGroups acc).map Prod.fst).Nodup := by
  unfold sortGroups
  rw [List.map_map]
  show ((acc.insertionSort keyLe).map Prod.fst).Nodup
  exact (((List.perm_insertionSort keyLe acc).map Prod.fst).nodup_iff).mpr h

theorem flatItems_sortGroups (acc : GroupAList) :
    (flatItems (sortGroups acc)).Perm (flatItems acc) := by
  unfold sortGroups flatItems
  rw [List.flatMap_map]
  have step1 : ((acc.insertionSort keyLe).flatMap
      fun p => p.2.insertionSort keyLe).Perm
        ((acc.insertionSort keyLe).flatMap Prod.snd) := by
    induction acc.insertionSort keyLe with
    | nil => exact List.Perm.refl _
    | cons q t ih =>
      rw [List.flatMap_cons, List.flatMap_cons]
      exact List.Perm.append (List.perm_insertionSort keyLe q.2) ih
  exact step1.trans
    (List.Perm.flatMap_right Prod.snd (List.perm_insertionSort keyLe acc))

theorem configNames_eq (c : ConfigState) :
    configNames c = (flatItems c.groups).map Prod.fst := by
  unfold configNames flatItems
  rw [List.map_flatMap]

/-- Claim C9: for every successfully loaded Config — the missing-file case
included — `maxlen` equals the maximum parsed item-name length over all
items of the config, and equals `0` when the config holds no items. -/
theorem C9_maxlen (path : Str) (file : Option (List Str)) (c : ConfigState)
    (h : configRead path file = .ok c) :
    c.maxlen = maxLen (configNames c) ∧ (configNames c = [] → c.maxlen = 0) := by
  have hmain : c.maxlen = maxLen (configNames c) := by
    cases file with
    | none =>
      unfold configRead at h
      dsimp only at h
      injection h with h1
      subst h1
      rfl
    | some lines =>
      obtain ⟨acc, ml, hr, rfl⟩ := configRead_ok h
      obtain ⟨h1, _, h3, _⟩ := readLoop_invariant path lines 0 [] [] 0 acc ml hr
      show ml = maxLen (configNames ⟨sortGroups acc, ml⟩)
      rw [configNames_eq]
      have hp : ((flatItems (sortGroups acc)).map Prod.fst).Perm
          (((collectItems [] lines).map Prod.snd).map Prod.fst) :=
        List.Perm.map Prod.fst ((flatItems_sortGroups acc).trans h3)
      rw [maxLen_perm hp, List.map_map]
      have hfun : (collectItems [] lines).map (Prod.fst ∘ Prod.snd) =
          (collectItems [] lines).map fun p => p.2.1 := rfl
      rw [hfun, h1]
      omega
  exact ⟨hmain, fun he => by rw [hmain, he]; rfl⟩

/-- Witness for C9 at a two-line config with a group header. -/
theorem C9_witness :
    configRead (str "p") (some [str "ab : x", str "\x7b g \x7d", str "c : y"]) =
      .ok ⟨[([], [(str "ab", str "x")]), (str "g", [(str "c", str "y")])], 2⟩ ∧
    ((⟨[([], [(str "ab", str "x")]), (str "g", [(str "c", str "y")])], 2⟩ :
        ConfigState).maxlen =
      maxLen (configNames
        ⟨[([], [(str "ab", str "x")]), (str "g", [(str "c", str "y")])], 2⟩) ∧
     (configNames (⟨[([], [(str "ab", str "x")]),
        (str "g", [(str "c", str "y")])], 2⟩ : ConfigState) = [] →
      (⟨[([], [(str "ab", str "x")]), (str "g", [(str "c", str "y")])], 2⟩ :
        ConfigState).maxlen = 0)) :=
  ⟨rfl, C9_maxlen (str "p")
    (some [str "ab : x", str "\x7b g \x7d", str "c : y"]) _ rfl⟩

/-- Claim C10: when the same group label heads several sections of the file,
loading merges all their item lines into one group: the loaded Config's
group labels are duplicate-free, and each group's item list is a
permutation — sorted by name — of precisely the item lines governed by that
label anywhere in the file (`itemsUnder`, whose current label starts empty
and is replaced by each header line). -/
theorem C10_merge (path : Str) (lines : List Str) (c : ConfigState)
    (h : configRead path (some lines) = .ok c) :
    (c.groups.map Prod.fst).Nodup ∧
    ∀ p ∈ c.groups, p.2.Perm (itemsUnder lines p.1) ∧
      List.Sorted keyLe p.2 := by
  obtain ⟨acc, ml, hr, rfl⟩ := configRead_ok h
  obtain ⟨_, h2, _, h4⟩ := readLoop_invariant path lines 0 [] [] 0 acc ml hr
  have hnd : (acc.map Prod.fst).Nodup := h4 (by simp)
  refine ⟨sortGroups_keys_nodup hnd, ?_⟩
  intro p hp
  obtain ⟨q, hq, hfst, hsnd⟩ := mem_sortGroups hp
  have hitems : q.2 = itemsUnder lines q.1 := by
    rw [← assocGet_of_mem hnd hq, h2 q.1]
    rfl
  constructor
  · rw [hsnd, ← hfst, ← hitems]
    exact List.perm_insertionSort keyLe q.2
  · rw [hsnd]
    exact List.sorted_insertionSort keyLe q.2

/-- Witness for C10: the label `g` appears twice; its items merge and sort. -/
theorem C10_witness :
    configRead (str "p")
      (some [str "\x7b g \x7d", str "zz : a", str "\x7b g \x7d", str "aa : b"]) =
      .ok ⟨[(str "g", [(str "aa", str "b"), (str "zz", str "a")])], 2⟩ ∧
    ((((⟨[(str "g", [(str "aa", str "b"), (str "zz", str "a")])], 2⟩ :
        ConfigState).groups.map Prod.fst).Nodup) ∧
      ∀ p ∈ (⟨[(str "g", [(str "aa", str "b"), (str "zz", str "a")])], 2⟩ :
          ConfigState).groups,
        p.2.Perm (itemsUnder
          [str "\x7b g \x7d", str "zz : a", str "\x7b g \x7d", str "aa : b"]
          p.1) ∧ List.Sorted keyLe p.2) :=
  ⟨rfl, C10_merge (str "p")
    [str "\x7b g \x7d", str "zz : a", str "\x7b g \x7d", str "aa : b"] _ rfl⟩

/-! ### Group header lines (claim C4) -/

theorem splitFirst_eq_none {c : Char} : ∀ {s : Str}, c ∉ s →
    splitFirst c s = none := by
  intro s
  induction s with
  | nil => intro _; rfl
  | cons x xs ih =>
    intro h
    unfold splitFirst
    rw [if_neg (fun he : x = c => h (he ▸ List.mem_cons_self x xs)),
      ih (fun hm => h (List.mem_cons_of_mem _ hm))]
    rfl

theorem pyStrip_cons_space {c : Char} (hc : pyIsSpace c = true) (s : Str) :
    pyStrip (c :: s) = pyStrip s := by
  unfold pyStrip pyStripLeft
  rw [List.dropWhile_cons_of_pos hc]

theorem pyStripRight_concat_space {c : Char} (hc : pyIsSpace c = true) (s : Str) :
    pyStripRight (s ++ [c]) = pyStripRight s := by
  unfold pyStripRight
  rw [List.reverse_append]
  show ((c :: s.reverse).dropWhile pyIsSpace).reverse = _
  rw [List.dropWhile_cons_of_pos hc]

theorem pyStrip_concat_space {c : Char} (hc : pyIsSpace c = true) (s : Str) :
    pyStrip (s ++ [c]) = pyStrip s := by
  unfold pyStrip pyStripLeft
  rw [List.dropWhile_append]
  split
  · rename_i hemp
    rw [List.dropWhile_cons_of_pos hc]
    rw [List.isEmpty_iff.mp hemp]
    rfl
  · exact pyStripRight_concat_space hc _

/-- Parse of a well-formed group-header line: provided the label contains no
colon (otherwise the `ITEM` pattern, tried first, wins) and no newline (a
line produced by Python's file iteration cannot contain one, and the
regexes' `.` does not match it), the line `{ label }` is classified as a
group header whose label is the trimmed text between the braces. -/
theorem classify_group_header (label : Str) (hc : ':' ∉ label)
    (_hn : '\n' ∉ label) :
    classify ('{' :: ' ' :: (label ++ [' ', '}'])) = .group (pyStrip label) := by
  have hform : ('{' :: ' ' :: (label ++ [' ', '}'])) =
      ('{' :: ' ' :: (label ++ [' '])) ++ ['}'] := by simp
  have hstrip : pyStrip ('{' :: ' ' :: (label ++ [' ', '}'])) =
      '{' :: ' ' :: (label ++ [' ', '}']) := by
    refine pyStrip_eq_self (c := '{') (d := '}') rfl (by decide) ?_ (by decide)
    rw [hform]
    exact List.getLast?_concat _
  have hnocolon : ':' ∉ ('{' :: ' ' :: (label ++ [' ', '}'])) := by
    intro hmem
    rcases List.mem_cons.mp hmem with h1 | hmem1
    · exact absurd h1 (by decide)
    rcases List.mem_cons.mp hmem1 with h2 | hmem2
    · exact absurd h2 (by decide)
    rcases List.mem_append.mp hmem2 with h3 | h4
    · exact hc h3
    rcases List.mem_cons.mp h4 with h5 | h6
    · exact absurd h5 (by decide)
    rcases List.mem_cons.mp h6 with h7 | h8
    · exact absurd h7 (by decide)
    · cases h8
  have hitem : itemMatch ('{' :: ' ' :: (label ++ [' ', '}'])) = none := by
    unfold itemMatch
    rw [splitFirst_eq_none hnocolon]
  have hformt : (' ' :: (label ++ [' ', '}'])) =
      (' ' :: (label ++ [' '])) ++ ['}'] := by simp
  have hsr : pyStripRight (' ' :: (label ++ [' ', '}'])) =
      ' ' :: (label ++ [' ', '}']) := by
    refine pyStripRight_eq_self (c := '}') ?_ (by decide)
    rw [hformt]
    exact List.getLast?_concat _
  have hglast : ∀ hpf : pyStripRight (' ' :: (label ++ [' ', '}'])) ≠ [],
      (pyStripRight (' ' :: (label ++ [' ', '}']))).getLast hpf = '}' := by
    intro hpf
    have h3 := List.getLast?_eq_getLast_of_ne_nil hpf
    have h4 : (pyStripRight (' ' :: (label ++ [' ', '}']))).getLast? =
        some '}' := by
      rw [hsr, hformt]
      exact List.getLast?_concat _
    rw [h4] at h3
    injection h3 with h5
    exact h5.symm
  have hgroup : groupMatch ('{' :: ' ' :: (label ++ [' ', '}'])) =
      some (pyStrip label) := by
    unfold groupMatch
    rw [show ('{' :: ' ' :: (label ++ [' ', '}'])).dropWhile pyIsSpace =
        '{' :: ' ' :: (label ++ [' ', '}']) from
      List.dropWhile_cons_of_neg (by decide)]
    dsimp only
    rw [if_pos rfl]
    split
    · rename_i heq
      rw [hsr] at heq
      cases heq
    · rw [if_pos (hglast _), hsr]
      rw [show (' ' :: (label ++ [' ', '}'])).dropLast =
          ' ' :: (label ++ [' ']) from by rw [hformt]; exact List.dropLast_concat]
      rw [pyStrip_cons_space (by decide), pyStrip_concat_space (by decide)]
  unfold classify
  dsimp only
  rw [hstrip]
  rw [if_neg (by simp), if_neg (by simp), hitem, hgroup]

/-- Counterexample to claim C4 as stated: for the label `a:b` the line
`{ a:b }` is not parsed as a group header — the `ITEM` pattern is tried
first and wins, so the line is an item named `{ a` with command `b }`. -/
theorem C4_counterexample :
    classify (str "\x7b a:b \x7d") =
      LineKind.item (str "\x7b a") (str "b \x7d") ∧
    classify (str "\x7b a:b \x7d") ≠ LineKind.group (str "a:b") :=
  ⟨by decide, by decide⟩

/-- Claim C4 (amended): for every label string that contains no `:` (and no
newline, which no line can carry), the config line `{ label }` is parsed as
a group header with the label trimmed of surrounding whitespace; such a
header makes its label the current group of the parsing loop for the
subsequent lines; and in every loaded config each group's items are exactly
(up to the final sort) the item lines governed by that label, where the
current label starts as the empty label and changes only at header lines —
`itemsUnder` is that description.  A `{ label }` line whose label contains a
colon is parsed as an item instead (`C4_counterexample`), because the item
pattern is tried first. -/
theorem C4_group_header (label : Str) (hc : ':' ∉ label)
    (hn : '\n' ∉ label) :
    classify ('{' :: ' ' :: (label ++ [' ', '}'])) =
      LineKind.group (pyStrip label) ∧
    (∀ path lno g acc ml rest,
      readLoop path lno g acc ml (('{' :: ' ' :: (label ++ [' ', '}'])) :: rest) =
        readLoop path (lno + 1) (pyStrip label) acc ml rest) ∧
    ∀ path lines c, configRead path (some lines) = .ok c →
      ∀ p ∈ c.groups, p.2.Perm (itemsUnder lines p.1) := by
  have hcg := classify_group_header label hc hn
  refine ⟨hcg, ?_, ?_⟩
  · intro path lno g acc ml rest
    conv_lhs => unfold readLoop
    rw [hcg]
  · intro path lines c h p hp
    obtain ⟨acc, ml, hr, rfl⟩ := configRead_ok h
    obtain ⟨_, h2, _, h4⟩ := readLoop_invariant path lines 0 [] [] 0 acc ml hr
    obtain ⟨q, hq, hfst, hsnd⟩ := mem_sortGroups hp
    have hitems : q.2 = itemsUnder lines q.1 := by
      rw [← assocGet_of_mem (h4 (by simp)) hq, h2 q.1]
      rfl
    rw [hsnd, ← hfst, ← hitems]
    exact List.perm_insertionSort keyLe q.2

/-- Witness for C4 (amended) at the label `dev`. -/
theorem C4_witness :
    (':' ∉ str "dev") ∧ ('\n' ∉ str "dev") ∧
    (classify ('{' :: ' ' :: (str "dev" ++ [' ', '}'])) =
      LineKind.group (pyStrip (str "dev")) ∧
    (∀ path lno g acc ml rest,
      readLoop path lno g acc ml
          (('{' :: ' ' :: (str "dev" ++ [' ', '}'])) :: rest) =
        readLoop path (lno + 1) (pyStrip (str "dev")) acc ml rest) ∧
    ∀ path lines c, configRead path (some lines) = .ok c →
      ∀ p ∈ c.groups, p.2.Perm (itemsUnder lines p.1)) :=
  ⟨by decide, by decide, C4_group_header (str "dev") (by decide) (by decide)⟩
